import Mathlib

/-!
Shallow embedding of `src/pagerank.py` (functions `transition_model`,
`sample_pagerank`, `iterate_pagerank`).

Conventions of the embedding:
* Nodes are natural numbers; a Python dict with a fixed insertion order is a
  pair of a key list (`pages`, `keys`) and a total function giving the value
  at each key.  The function's value outside the key list is a default that
  the program never observes.
* Python floats become exact rationals (ℚ).
* Python set objects become duplicate-free lists; iteration order over a set
  is unspecified in Python, so every theorem that depends on it either fixes
  the order produced by the construction in the source or is order-independent.
* `random.random()` draws are passed in as an explicit list of rationals, and
  the `random.choice` start page as an explicit argument.
* The unbounded `while` loop of `iterate_pagerank` is modelled with a fuel
  parameter; `none` means the loop has not exited within that many passes.
-/

namespace PageRank

/-- A Python dict `page -> set of pages` : the `corpus` of `pagerank.py`.
`pages` is the key list in insertion order; `links p` is the outlink list of
`p` (meaningful only for `p ∈ pages`). -/
structure Corpus where
  pages : List Nat
  links : Nat → List Nat

/-- Embedding of `transition_model` (lines 51-70): if the page has outlinks,
first loop writes `(1-d)/len(corpus)` at every corpus key, second loop adds
`d/len(corpus[page])` at every outlink of `page`; otherwise one loop writes
`1/len(corpus)` at every key.  The dict is a total function with default 0.
Preconditions from the spec (page is a key; outlinks are keys) are carried as
hypotheses of the theorems, since Python would raise `KeyError` without them. -/
def transition_model (c : Corpus) (page : Nat) (d : ℚ) : Nat → ℚ :=
  if (c.links page).length ≠ 0 then
    (c.links page).foldl
      (fun m link q => if q = link then m link + d / ((c.links page).length : ℚ) else m q)
      (c.pages.foldl
        (fun m key q => if q = key then (1 - d) / (c.pages.length : ℚ) else m q)
        (fun _ => 0))
  else
    c.pages.foldl
      (fun m key q => if q = key then 1 / (c.pages.length : ℚ) else m q)
      (fun _ => 0)

/-- Reference distribution, following the spec wording (§4.1): base mass
`(1-d)/|graph|` for every node plus `d/|outlinks(page)|` for linked nodes,
and the uniform `1/|graph|` for a sink. -/
def transitionRef (c : Corpus) (page : Nat) (d : ℚ) : Nat → ℚ := fun k =>
  if (c.links page).length ≠ 0 then
    (1 - d) / (c.pages.length : ℚ) +
      (if k ∈ c.links page then d / ((c.links page).length : ℚ) else 0)
  else
    1 / (c.pages.length : ℚ)

/-- Embedding of the categorical draw in `sample_pagerank` (lines 88-93):
walk the model's entries in key order, accumulating `total`, and return the
first key whose running total strictly exceeds the draw; `none` if the
entries are exhausted without a selection. -/
def selectFrom (val : Nat → ℚ) (choice : ℚ) : ℚ → List Nat → Option Nat
  | _, [] => none
  | total, k :: rest =>
      if total + val k > choice then some k
      else selectFrom val choice (total + val k) rest

/-- State of the random walk in `sample_pagerank`: the visit-counter dict
(`counts` with key list `keys`), the current `page`, and the `nextpage`
variable (initialized to `None` at line 82 and only overwritten when the
categorical draw breaks out of its loop). -/
structure SampState where
  counts : Nat → Nat
  keys : List Nat
  page : Option Nat
  nextpage : Option Nat

/-- One iteration of the sampling loop (lines 85-95): compute the model for
the current page, draw the next page, increment the counter of the *current*
page, advance.  A current page of `none` means Python would look up
`corpus[None]` and raise; the embedding returns `none` for the whole run. -/
def sampleStep (c : Corpus) (d : ℚ) (st : SampState) (x : ℚ) : Option SampState :=
  match st.page with
  | none => none
  | some p =>
      let np := match selectFrom (transition_model c p d) x 0 c.pages with
                | some k => some k
                | none => st.nextpage
      some ⟨fun q => if q = p then st.counts p + 1 else st.counts q,
            if p ∈ st.keys then st.keys else st.keys ++ [p],
            np, np⟩

/-- A rank dict: key list plus value function (default 0 off the keys). -/
structure Tbl where
  keys : List Nat
  val : Nat → ℚ

/-- Sum of the dict's values over its keys. -/
def Tbl.total (t : Tbl) : ℚ := (t.keys.map t.val).sum

/-- Embedding of `sample_pagerank` (lines 73-99).  `draws` is the list of
`random.random()` outputs (its length is the sample count `n`), `start` the
page chosen by `random.choice`.  After the walk every counter is divided
by `n`. -/
def sample_pagerank (c : Corpus) (d : ℚ) (draws : List ℚ) (start : Nat) :
    Option Tbl :=
  (draws.foldlM (sampleStep c d) ⟨fun _ => 0, [], some start, none⟩).map
    (fun st => ⟨st.keys, fun k => (st.counts k : ℚ) / (draws.length : ℚ)⟩)

/-- Embedding of lines 118-120 of `iterate_pagerank`: for every corpus key
whose outlink set is empty, `corpus[page].update(set(corpus.keys()))` turns
its outlink set into the set of all keys.  In the source this writes through
to the caller's dict (an in-place mutation of the shared corpus); the
embedding returns the corpus those lines leave behind. -/
def sinkRewrite (c : Corpus) : Corpus :=
  ⟨c.pages, fun p => if p ∈ c.pages ∧ c.links p = [] then c.pages else c.links p⟩

/-- The reverse-index dict of `iterate_pagerank`: value function `lt`, key
list `keys`, and a flag `grew` recording whether the `else` branch of
lines 126-129 (insertion of a previously unknown key) was ever taken. -/
structure LinksTo where
  lt : Nat → List Nat
  keys : List Nat
  grew : Bool

/-- One `links_to[link].add(page)` step (lines 126-129), with the dict-miss
branch tracked in `grew`. -/
def addLink (st : LinksTo) (link page : Nat) : LinksTo :=
  if link ∈ st.keys then
    ⟨fun q => if q = link then st.lt link ++ [page] else st.lt q, st.keys, st.grew⟩
  else
    ⟨fun q => if q = link then [page] else st.lt q, st.keys ++ [link], true⟩

/-- Embedding of the reverse-index construction (lines 114-129, after the
sink rewrite): `links_to[page] = set()` for every key, then for every page
and every outlink, add the page to the target's entry. -/
def buildLinksTo (c : Corpus) : LinksTo :=
  c.pages.foldl
    (fun st page => (c.links page).foldl (fun st link => addLink st link page) st)
    ⟨fun _ => [], c.pages, false⟩

/-- Embedding of the rank initialization (line 124): every key gets
`1/len(corpus)`. -/
def initRank (c : Corpus) : Nat → ℚ :=
  c.pages.foldl
    (fun m page q => if q = page then 1 / (c.pages.length : ℚ) else m q)
    (fun _ => 0)

/-- Embedding of lines 136-138: `pageRank[page]` is reset to the base value
and then incremented once per element of `links_to[page]`, reading
`pageRank[link]` from the *current*, partially updated dict; when
`link = page` the read even sees the partially accumulated value `v` of the
entry being rebuilt. -/
def newVal (c : Corpus) (lt : Nat → List Nat) (d : ℚ) (pr : Nat → ℚ)
    (page : Nat) : ℚ :=
  (lt page).foldl
    (fun v link =>
      v + d * ((if link = page then v else pr link) / ((c.links link).length : ℚ)))
    ((1 - d) / (c.pages.length : ℚ))

/-- Absolute value of a rational, as Python's `abs` computes it. -/
def absQ (x : ℚ) : ℚ := if x < 0 then -x else x

/-- One full pass of the convergence loop (lines 133-141): update every page
in key order in the shared dict, tracking the maximum absolute change
against the snapshot `lastrank = pageRank.copy()` taken before the pass
(lines 140-141 keep `maxdifference` only when the new change exceeds it). -/
def gsPass (c : Corpus) (lt : Nat → List Nat) (d : ℚ) (pr0 : Nat → ℚ) :
    (Nat → ℚ) × ℚ :=
  c.pages.foldl
    (fun st page =>
      let v := newVal c lt d st.1 page
      ((fun q => if q = page then v else st.1 q),
       if absQ (v - pr0 page) > st.2 then absQ (v - pr0 page) else st.2))
    (pr0, 0)

/-- Table-only version of the pass over an arbitrary page list (used to
reason about `gsPass`, whose second component is the max-difference). -/
def gsTab (c : Corpus) (lt : Nat → List Nat) (d : ℚ) (l : List Nat)
    (pr : Nat → ℚ) : Nat → ℚ :=
  l.foldl (fun t page q => if q = page then newVal c lt d t page else t q) pr

/-- Reference Jacobi-style pass, following the spec wording (§4.3): every
node's new rank is computed from the full snapshot of the previous pass. -/
def jacobiPass (c : Corpus) (lt : Nat → List Nat) (d : ℚ) (pr : Nat → ℚ) :
    Nat → ℚ := fun p =>
  (1 - d) / (c.pages.length : ℚ) +
    d * ((lt p).map (fun q => pr q / ((c.links q).length : ℚ))).sum

/-- Embedding of the `while maxdifference > 0.0001` loop (lines 131-141),
with fuel: `none` means the loop has not exited within `fuel` passes.  The
source itself has no such bound; `maxdifference` starts at 1. -/
def iterLoop (c : Corpus) (lt : Nat → List Nat) (d : ℚ) :
    Nat → (Nat → ℚ) → ℚ → Option (Nat → ℚ)
  | 0, pr, md => if md > 1 / 10000 then none else some pr
  | fuel + 1, pr, md =>
      if md > 1 / 10000 then
        let st := gsPass c lt d pr
        iterLoop c lt d fuel st.1 st.2
      else some pr

/-- Embedding of `iterate_pagerank` (lines 102-143): sink rewrite, reverse
index, uniform initialization, then the convergence loop. -/
def iterate_pagerank (c : Corpus) (d : ℚ) (fuel : Nat) : Option (Nat → ℚ) :=
  let c' := sinkRewrite c
  iterLoop c' (buildLinksTo c').lt d fuel (initRank c') 1

/-- The 2-node corpus `{A: {B}, B: {}}` (A = 0, B = 1); B is a sink. -/
def cAB : Corpus :=
  ⟨[0, 1], fun p => if p = 0 then [1] else []⟩

/-- A 3-node corpus `{A: {B, C}, B: {C}, C: {A}}` with no sinks and no
self-links. -/
def cTri : Corpus :=
  ⟨[0, 1, 2], fun p => if p = 0 then [1, 2] else if p = 1 then [2] else
    if p = 2 then [0] else []⟩

/-- The 1-node corpus `{A: {A}}`. -/
def cSelf : Corpus := ⟨[0], fun _ => [0]⟩

/-- The 2-node cycle `{A: {B}, B: {A}}`. -/
def cCyc : Corpus :=
  ⟨[0, 1], fun p => if p = 0 then [1] else if p = 1 then [0] else []⟩

/-- A 3-node corpus `{A: {B}, B: {A}, C: {A, B}}` on which the convergence
loop contracts at rate `damping^2` per pass. -/
def cSlow : Corpus :=
  ⟨[0, 1, 2], fun p => if p = 0 then [1] else if p = 1 then [0] else
    if p = 2 then [0, 1] else []⟩

/-- The empty corpus `{}`. -/
def cEmpty : Corpus := ⟨[], fun _ => []⟩

/-- Invariant of the sampling walk after `m` completed iterations: the
current page is a real corpus key, the counter dict has duplicate-free keys,
counts are zero off the keys, and the counters total exactly `m`. -/
def SampInv (c : Corpus) (st : SampState) (m : Nat) : Prop :=
  (∃ p, st.page = some p ∧ p ∈ c.pages) ∧ st.keys.Nodup ∧
    (∀ k, k ∉ st.keys → st.counts k = 0) ∧ (st.keys.map st.counts).sum = m

/-! ### Dict-building lemmas -/

/-- Writing the same value at every key of `l` yields that value exactly on
the members of `l`. -/
theorem foldl_update_const (l : List Nat) (v : ℚ) (k : Nat) :
    ∀ m0 : Nat → ℚ,
      (l.foldl (fun m key q => if q = key then v else m q) m0) k
        = if k ∈ l then v else m0 k := by
  induction l with
  | nil => intro m0; simp
  | cons a t ih =>
      intro m0
      simp only [List.foldl_cons, ih, List.mem_cons]
      by_cases hk : k ∈ t
      · simp [hk]
      · by_cases hka : k = a
        · subst hka; simp [hk]
        · simp [hk, hka]

/-- Incrementing at every key of a duplicate-free list `l` adds the increment
exactly once on the members of `l`. -/
theorem foldl_update_incr (l : List Nat) (inc : ℚ) (k : Nat) :
    ∀ m0 : Nat → ℚ, l.Nodup →
      (l.foldl (fun m link q => if q = link then m link + inc else m q) m0) k
        = m0 k + if k ∈ l then inc else 0 := by
  induction l with
  | nil => intro m0 _; simp
  | cons a t ih =>
      intro m0 hl
      have hat : a ∉ t := (List.nodup_cons.mp hl).1
      have ht : t.Nodup := (List.nodup_cons.mp hl).2
      simp only [List.foldl_cons, ih _ ht, List.mem_cons]
      by_cases hka : k = a
      · subst hka
        simp [hat]
      · simp [hka]

/-- Pointwise value of `transition_model`: base mass on the corpus keys plus
one increment on the outlinks (the dict defaults to 0 elsewhere). -/
theorem transition_model_apply (c : Corpus) (page : Nat) (d : ℚ) (k : Nat)
    (hl : (c.links page).Nodup) :
    transition_model c page d k =
      if (c.links page).length ≠ 0 then
        (if k ∈ c.pages then (1 - d) / (c.pages.length : ℚ) else 0) +
          (if k ∈ c.links page then d / ((c.links page).length : ℚ) else 0)
      else
        (if k ∈ c.pages then 1 / (c.pages.length : ℚ) else 0) := by
  unfold transition_model
  split
  · rw [foldl_update_incr _ _ _ _ hl, foldl_update_const]
  · rw [foldl_update_const]

/-- C3: for every graph, key, and damping in `[0, 1]`, `transition_model`
returns exactly the reference distribution of the spec: base probability
`(1-d)/|graph|` for every node plus `d/|outlinks|` on the directly linked
nodes, and the uniform `1/|graph|` when the node is a sink. -/
theorem C3_transition_model_matches_reference (c : Corpus) (page : Nat) (d : ℚ)
    (hpage : page ∈ c.pages) (hd0 : 0 ≤ d) (hd1 : d ≤ 1)
    (hl : (c.links page).Nodup)
    (hcl : ∀ q ∈ c.links page, q ∈ c.pages) :
    ∀ k ∈ c.pages, transition_model c page d k = transitionRef c page d k := by
  intro k hk
  rw [transition_model_apply c page d k hl]
  unfold transitionRef
  split <;> simp [hk]

/-- Witness for C3 at the corpus `{A: {B}, B: {}}`, node A, damping 0.85,
evaluated at node B. -/
theorem C3_transition_model_matches_reference_witness :
    (1 : Nat) ∈ cAB.pages ∧
      transition_model cAB 0 (17/20) 1 = transitionRef cAB 0 (17/20) 1 :=
  ⟨by decide,
   C3_transition_model_matches_reference cAB 0 (17/20) (by decide) (by norm_num)
     (by norm_num) (by decide) (by decide) 1 (by decide)⟩

/-- C7 counterexample: at damping 0, a node directly linked from the current
node does not receive strictly more than `(1-damping)/|graph|`.  In the
corpus `{A: {A}}` node A is linked from A, yet its probability equals the
base `(1-0)/1 = 1` instead of exceeding it. -/
theorem C7_counterexample :
    0 ∈ cSelf.links 0 ∧
      ¬ ((1 - (0:ℚ)) / (cSelf.pages.length : ℚ) < transition_model cSelf 0 0 0) :=
  ⟨by decide, by with_unfolding_all decide⟩

/-- C7 (amended): for a node with at least one outlink every graph node
receives at least the teleportation floor `(1-d)/|graph|`, and when the
damping is strictly positive every directly linked node receives strictly
more than the floor. -/
theorem C7_teleport_floor (c : Corpus) (page : Nat) (d : ℚ)
    (hpage : page ∈ c.pages) (hne : c.links page ≠ [])
    (hd0 : 0 ≤ d) (hd1 : d ≤ 1) (hl : (c.links page).Nodup)
    (hcl : ∀ q ∈ c.links page, q ∈ c.pages) :
    (∀ k ∈ c.pages, (1 - d) / (c.pages.length : ℚ) ≤ transition_model c page d k) ∧
    (0 < d → ∀ k ∈ c.links page,
      (1 - d) / (c.pages.length : ℚ) < transition_model c page d k) := by
  have hlen : (c.links page).length ≠ 0 := by
    simpa using hne
  have hlenpos : (0:ℚ) < ((c.links page).length : ℚ) :=
    Nat.cast_pos.mpr (Nat.pos_of_ne_zero hlen)
  constructor
  · intro k hk
    rw [transition_model_apply c page d k hl]
    simp only [hlen, if_true, hk, ite_true, ne_eq, not_false_eq_true]
    have hext : 0 ≤ if k ∈ c.links page then d / ((c.links page).length : ℚ) else 0 := by
      split
      · exact div_nonneg hd0 (le_of_lt hlenpos)
      · exact le_refl 0
    linarith
  · intro hdpos k hk
    rw [transition_model_apply c page d k hl]
    simp only [hlen, if_true, hcl k hk, hk, ite_true, ne_eq, not_false_eq_true]
    have hext : 0 < d / ((c.links page).length : ℚ) := div_pos hdpos hlenpos
    linarith

/-- Total mass of `transition_model` over the corpus keys is exactly 1, for
any damping, whenever the corpus is a well-formed dict (duplicate-free keys,
duplicate-free outlinks that are themselves keys). -/
theorem transition_model_sum (c : Corpus) (page : Nat) (d : ℚ)
    (hpages : c.pages.Nodup) (hne : c.pages ≠ [])
    (hl : (c.links page).Nodup)
    (hcl : ∀ q ∈ c.links page, q ∈ c.pages) :
    (c.pages.map (transition_model c page d)).sum = 1 := by
  have hn0 : c.pages.length ≠ 0 := by
    simpa using hne
  have hnq : ((c.pages.length : ℚ)) ≠ 0 := by
    exact_mod_cast hn0
  rw [← List.sum_toFinset _ hpages]
  by_cases hb : (c.links page).length = 0
  · have hval : ∀ k ∈ c.pages.toFinset,
        transition_model c page d k = 1 / (c.pages.length : ℚ) := by
      intro k hk
      rw [transition_model_apply c page d k hl]
      simp [hb, List.mem_toFinset.mp hk]
    rw [Finset.sum_congr rfl hval, Finset.sum_const,
        List.toFinset_card_of_nodup hpages, nsmul_eq_mul]
    field_simp
  · have hlq : (((c.links page).length : ℚ)) ≠ 0 := by
      exact_mod_cast hb
    have hval : ∀ k ∈ c.pages.toFinset,
        transition_model c page d k
          = (1 - d) / (c.pages.length : ℚ)
            + (if k ∈ (c.links page).toFinset
                then d / ((c.links page).length : ℚ) else 0) := by
      intro k hk
      rw [transition_model_apply c page d k hl]
      simp [hb, List.mem_toFinset.mp hk, List.mem_toFinset]
    have hsub : (c.links page).toFinset ⊆ c.pages.toFinset := by
      intro q hq
      exact List.mem_toFinset.mpr (hcl q (List.mem_toFinset.mp hq))
    rw [Finset.sum_congr rfl hval, Finset.sum_add_distrib, Finset.sum_const,
        List.toFinset_card_of_nodup hpages, Finset.sum_ite_mem,
        Finset.inter_eq_right.mpr hsub, Finset.sum_const,
        List.toFinset_card_of_nodup hl, nsmul_eq_mul, nsmul_eq_mul]
    field_simp

/-- The cumulative scan of `selectFrom` selects a member of the list whenever
the draw lies between the starting accumulator and the accumulator plus the
total mass of the list. -/
theorem selectFrom_mem (val : Nat → ℚ) (choice : ℚ) :
    ∀ (l : List Nat) (acc : ℚ), acc ≤ choice → choice < acc + (l.map val).sum →
      ∃ k, selectFrom val choice acc l = some k ∧ k ∈ l := by
  intro l
  induction l with
  | nil =>
      intro acc h1 h2
      exfalso
      simp only [List.map_nil, List.sum_nil, add_zero] at h2
      exact absurd h2 (not_lt.mpr h1)
  | cons a t ih =>
      intro acc h1 h2
      by_cases hk : choice < acc + val a
      · exact ⟨a, by simp [selectFrom, hk], List.mem_cons_self a t⟩
      · have h1' : acc + val a ≤ choice := not_lt.mp hk
        have h2' : choice < acc + val a + (t.map val).sum := by
          simp only [List.map_cons, List.sum_cons] at h2
          linarith
        obtain ⟨k, hsel, hmem⟩ := ih (acc + val a) h1' h2'
        exact ⟨k, by simp [selectFrom, hk, hsel], List.mem_cons_of_mem a hmem⟩

/-- C9: for a well-formed non-empty graph, a key as current page, and a draw
in `[0,1)`, the categorical scan of `sample_pagerank` always selects a node
(the running total reaches the full mass 1, which strictly exceeds the
draw), so the walk never advances to the sentinel `None` left from the
initialization. -/
theorem C9_selection_always_succeeds (c : Corpus) (page : Nat) (d x : ℚ)
    (hne : c.pages ≠ []) (hpages : c.pages.Nodup) (hpage : page ∈ c.pages)
    (hl : (c.links page).Nodup) (hcl : ∀ q ∈ c.links page, q ∈ c.pages)
    (hd0 : 0 ≤ d) (hd1 : d ≤ 1) (hx0 : 0 ≤ x) (hx1 : x < 1) :
    ∃ k, selectFrom (transition_model c page d) x 0 c.pages = some k ∧
      k ∈ c.pages := by
  apply selectFrom_mem (transition_model c page d) x c.pages 0 hx0
  rw [zero_add, transition_model_sum c page d hpages hne hl hcl]
  exact hx1

/-- Witness for C9 at the corpus `{A: {B}, B: {}}`, current page A,
damping 0.85, draw 1/2. -/
theorem C9_selection_always_succeeds_witness :
    ∃ k, selectFrom (transition_model cAB 0 (17/20)) (1/2) 0 cAB.pages = some k ∧
      k ∈ cAB.pages :=
  C9_selection_always_succeeds cAB 0 (17/20) (1/2) (by decide) (by decide)
    (by decide) (by decide) (by decide) (by with_unfolding_all decide)
    (by with_unfolding_all decide) (by with_unfolding_all decide)
    (by with_unfolding_all decide)

/-- Witness for the amended C7 at the corpus `{A: {B}, B: {}}`, node A,
damping 0.85, evaluated at the linked node B. -/
theorem C7_teleport_floor_witness :
    (0 : ℚ) < 17/20 ∧
      (1 - (17/20 : ℚ)) / (cAB.pages.length : ℚ) < transition_model cAB 0 (17/20) 1 :=
  ⟨by norm_num,
   (C7_teleport_floor cAB 0 (17/20) (by decide) (by decide) (by norm_num)
     (by norm_num) (by decide) (by decide)).2 (by norm_num) 1 (by decide)⟩

/-- Incrementing the counter of a member `p` of a duplicate-free key list
raises the total of the counters by exactly 1. -/
theorem sum_map_bump (p : Nat) (f : Nat → Nat) :
    ∀ l : List Nat, l.Nodup → p ∈ l →
      (l.map (fun q => if q = p then f p + 1 else f q)).sum
        = (l.map f).sum + 1 := by
  intro l
  induction l with
  | nil => intro _ hp; cases hp
  | cons a t ih =>
      intro hnd hp
      have hat : a ∉ t := (List.nodup_cons.mp hnd).1
      have ht : t.Nodup := (List.nodup_cons.mp hnd).2
      rcases List.mem_cons.mp hp with h | h
      · subst h
        have hmap : t.map (fun q => if q = p then f p + 1 else f q) = t.map f := by
          apply List.map_congr_left
          intro q hq
          have hqp : q ≠ p := fun e => hat (e ▸ hq)
          simp [hqp]
        simp only [List.map_cons, List.sum_cons, hmap, eq_self_iff_true,
          if_true, ite_true]
        omega
      · have hap : a ≠ p := fun e => hat (e ▸ h)
        simp only [List.map_cons, List.sum_cons, if_neg hap, ih ht h]
        omega

/-- Dividing every counter by `n` divides the total by `n`. -/
theorem sum_map_cast_div (f : Nat → Nat) (n : ℚ) :
    ∀ l : List Nat,
      (l.map (fun k => (f k : ℚ) / n)).sum = (((l.map f).sum : Nat) : ℚ) / n := by
  intro l
  induction l with
  | nil => simp
  | cons a t ih =>
      simp only [List.map_cons, List.sum_cons, ih]
      push_cast
      rw [add_div]

/-- One sampling iteration preserves the walk invariant and adds exactly one
unit to the counters. -/
theorem sampleStep_inv (c : Corpus) (d x : ℚ) (st : SampState) (m : Nat)
    (hpages : c.pages.Nodup) (hne : c.pages ≠ [])
    (hl : ∀ p ∈ c.pages, (c.links p).Nodup)
    (hcl : ∀ p ∈ c.pages, ∀ q ∈ c.links p, q ∈ c.pages)
    (hx0 : 0 ≤ x) (hx1 : x < 1)
    (hinv : SampInv c st m) :
    ∃ st', sampleStep c d st x = some st' ∧ SampInv c st' (m + 1) := by
  obtain ⟨⟨p, hpage, hpmem⟩, hknd, hz, hsum⟩ := hinv
  obtain ⟨k, hsel, hkmem⟩ :=
    selectFrom_mem (transition_model c p d) x c.pages 0 hx0
      (by
        rw [zero_add,
          transition_model_sum c p d hpages hne (hl p hpmem) (hcl p hpmem)]
        exact hx1)
  refine ⟨⟨fun q => if q = p then st.counts p + 1 else st.counts q,
           if p ∈ st.keys then st.keys else st.keys ++ [p],
           some k, some k⟩, ?_, ⟨k, rfl, hkmem⟩, ?_, ?_, ?_⟩
  · unfold sampleStep
    rw [hpage]
    simp only [hsel]
  · by_cases hpk : p ∈ st.keys
    · simpa [hpk] using hknd
    · simp only [hpk, if_neg, ite_false]
      exact List.nodup_append.mpr
        ⟨hknd, List.nodup_singleton p,
         fun a ha hpa => by
           simp only [List.mem_singleton] at hpa
           subst hpa
           exact hpk ha⟩
  · intro q hq
    by_cases hpk : p ∈ st.keys
    · simp only [hpk, ite_true] at hq
      have hqp : q ≠ p := fun e => hq (e ▸ hpk)
      simpa [hqp] using hz q hq
    · simp only [hpk, ite_false, List.mem_append, List.mem_singleton,
        not_or] at hq
      have hqp : q ≠ p := hq.2
      simpa [hqp] using hz q hq.1
  · by_cases hpk : p ∈ st.keys
    · simp only [hpk, ite_true]
      rw [sum_map_bump p st.counts st.keys hknd hpk, hsum]
    · simp only [hpk, ite_false]
      have hmap : st.keys.map (fun q => if q = p then st.counts p + 1 else st.counts q)
          = st.keys.map st.counts := by
        apply List.map_congr_left
        intro q hq
        have hqp : q ≠ p := fun e => hpk (e ▸ hq)
        simp [hqp]
      rw [List.map_append, List.sum_append, hmap, hsum]
      simp [hz p hpk]

/-- Folding the sampling step over the draw list succeeds and accumulates one
counter unit per draw. -/
theorem sample_fold_inv (c : Corpus) (d : ℚ)
    (hpages : c.pages.Nodup) (hne : c.pages ≠ [])
    (hl : ∀ p ∈ c.pages, (c.links p).Nodup)
    (hcl : ∀ p ∈ c.pages, ∀ q ∈ c.links p, q ∈ c.pages) :
    ∀ (draws : List ℚ) (st : SampState) (m : Nat),
      (∀ x ∈ draws, 0 ≤ x ∧ x < 1) → SampInv c st m →
      ∃ st', draws.foldlM (sampleStep c d) st = some st' ∧
        SampInv c st' (m + draws.length) := by
  intro draws
  induction draws with
  | nil =>
      intro st m _ hinv
      exact ⟨st, by simp, by simpa using hinv⟩
  | cons x rest ih =>
      intro st m hx hinv
      obtain ⟨st1, hstep, hinv1⟩ :=
        sampleStep_inv c d x st m hpages hne hl hcl
          (hx x (List.mem_cons_self x rest)).1
          (hx x (List.mem_cons_self x rest)).2 hinv
      obtain ⟨st', hfold, hinv'⟩ :=
        ih st1 (m + 1) (fun y hy => hx y (List.mem_cons_of_mem x hy)) hinv1
      refine ⟨st', ?_, ?_⟩
      · rw [List.foldlM_cons, hstep]
        simpa using hfold
      · have harith : m + 1 + rest.length = m + (x :: rest).length := by
          simp only [List.length_cons]
          omega
        exact harith ▸ hinv'

/-- C6: on a well-formed non-empty graph, with draws in `[0,1)` and at least
one sample, `sample_pagerank` returns a table whose values total exactly 1:
the per-node visit counters total exactly `n = |draws|`, and each is divided
by `n`. -/
theorem C6_sample_total_one (c : Corpus) (d : ℚ) (draws : List ℚ) (start : Nat)
    (hne : c.pages ≠ []) (hpages : c.pages.Nodup)
    (hl : ∀ p ∈ c.pages, (c.links p).Nodup)
    (hcl : ∀ p ∈ c.pages, ∀ q ∈ c.links p, q ∈ c.pages)
    (hd0 : 0 ≤ d) (hd1 : d ≤ 1)
    (hx : ∀ x ∈ draws, 0 ≤ x ∧ x < 1)
    (hn : draws ≠ []) (hstart : start ∈ c.pages) :
    ∃ t, sample_pagerank c d draws start = some t ∧ t.total = 1 := by
  obtain ⟨st', hfold, ⟨_, _, _, hsum⟩⟩ :=
    sample_fold_inv c d hpages hne hl hcl draws
      ⟨fun _ => 0, [], some start, none⟩ 0 hx
      ⟨⟨start, rfl, hstart⟩, List.nodup_nil, fun _ _ => rfl, rfl⟩
  refine ⟨⟨st'.keys, fun k => (st'.counts k : ℚ) / (draws.length : ℚ)⟩, ?_, ?_⟩
  · unfold sample_pagerank
    rw [hfold]
    rfl
  · unfold Tbl.total
    simp only
    rw [sum_map_cast_div st'.counts (draws.length : ℚ) st'.keys, hsum]
    have hlen : draws.length ≠ 0 := by
      simpa using hn
    have hlenq : ((draws.length : ℚ)) ≠ 0 := by
      exact_mod_cast hlen
    simp [hlenq]

/-- Witness for C6 at the 2-cycle `{A: {B}, B: {A}}`, damping 0.85, a single
draw 1/2, start page A. -/
theorem C6_sample_total_one_witness :
    ∃ t, sample_pagerank cCyc (17/20) [1/2] 0 = some t ∧ t.total = 1 :=
  C6_sample_total_one cCyc (17/20) [1/2] 0 (by decide) (by decide) (by decide)
    (by decide) (by with_unfolding_all decide) (by with_unfolding_all decide)
    (by with_unfolding_all decide) (by decide) (by decide)

/-- A property preserved by every step of a fold holds of the fold's
result. -/
theorem foldl_inv {σ : Type _} {α : Type _} (P : σ → Prop) (f : σ → α → σ) :
    ∀ (l : List α) (s : σ), P s → (∀ t a, a ∈ l → P t → P (f t a)) →
      P (l.foldl f s) := by
  intro l
  induction l with
  | nil => intro s hs _; simpa using hs
  | cons a t ih =>
      intro s hs hstep
      exact ih (f s a) (hstep s a (List.mem_cons_self a t) hs)
        (fun u b hb => hstep u b (List.mem_cons_of_mem a hb))

/-- After the sink rewrite, every outlink of a corpus key is still a corpus
key (sinks now link to the key list itself). -/
theorem sinkRewrite_closed (c : Corpus)
    (hcl : ∀ p ∈ c.pages, ∀ q ∈ c.links p, q ∈ c.pages) :
    ∀ p ∈ (sinkRewrite c).pages, ∀ q ∈ (sinkRewrite c).links p, q ∈ c.pages := by
  intro p hp q hq
  simp only [sinkRewrite] at hp hq
  by_cases h : p ∈ c.pages ∧ c.links p = []
  · rw [if_pos h] at hq
    exact hq
  · rw [if_neg h] at hq
    exact hcl p hp q hq

/-- C10: under the graph invariant that every outlink target is a key, the
reverse-index construction of `iterate_pagerank` (run after the sink
rewrite) never takes the dict-miss branch, and the finished `links_to` dict
has exactly the corpus's key list. -/
theorem C10_reverse_index_no_growth (c : Corpus)
    (hcl : ∀ p ∈ c.pages, ∀ q ∈ c.links p, q ∈ c.pages) :
    (buildLinksTo (sinkRewrite c)).grew = false ∧
      (buildLinksTo (sinkRewrite c)).keys = c.pages := by
  have hcl' := sinkRewrite_closed c hcl
  have main : ((buildLinksTo (sinkRewrite c)).keys = c.pages ∧
      (buildLinksTo (sinkRewrite c)).grew = false) := by
    unfold buildLinksTo
    apply foldl_inv (fun st : LinksTo => st.keys = c.pages ∧ st.grew = false)
    · exact ⟨rfl, rfl⟩
    · intro st page hpage hP
      apply foldl_inv (fun st : LinksTo => st.keys = c.pages ∧ st.grew = false)
      · exact hP
      · intro st2 link hlink hP2
        unfold addLink
        have hx : link ∈ st2.keys := by
          rw [hP2.1]
          exact hcl' page hpage link hlink
        rw [if_pos hx]
        exact hP2
  exact ⟨main.2, main.1⟩

/-- Witness for C10 at the corpus `{A: {B}, B: {}}` (whose sink B is
rewritten to link to both keys before the reverse index is built). -/
theorem C10_reverse_index_no_growth_witness :
    (buildLinksTo (sinkRewrite cAB)).grew = false ∧
      (buildLinksTo (sinkRewrite cAB)).keys = cAB.pages :=
  C10_reverse_index_no_growth cAB (by decide)

/-- The table component of the convergence-loop fold ignores the
max-difference component. -/
theorem gsFold_fst (c : Corpus) (lt : Nat → List Nat) (d : ℚ) (pr0 : Nat → ℚ) :
    ∀ (l : List Nat) (st : (Nat → ℚ) × ℚ),
      (l.foldl (fun st page =>
          ((fun q => if q = page then newVal c lt d st.1 page else st.1 q),
           if absQ (newVal c lt d st.1 page - pr0 page) > st.2 then
             absQ (newVal c lt d st.1 page - pr0 page)
           else st.2)) st).1
        = gsTab c lt d l st.1 := by
  intro l
  induction l with
  | nil => intro st; rfl
  | cons a t ih =>
      intro st
      rw [List.foldl_cons]
      exact ih _

/-- `gsPass` computes the same table as the table-only fold `gsTab` over the
corpus's key list. -/
theorem gsPass_fst (c : Corpus) (lt : Nat → List Nat) (d : ℚ) (pr0 : Nat → ℚ) :
    (gsPass c lt d pr0).1 = gsTab c lt d c.pages pr0 :=
  gsFold_fst c lt d pr0 c.pages (pr0, 0)

/-- The pass leaves untouched every node that is not in the processed
list. -/
theorem gsTab_notMem (c : Corpus) (lt : Nat → List Nat) (d : ℚ) :
    ∀ (l : List Nat) (pr : Nat → ℚ) (p : Nat), p ∉ l →
      gsTab c lt d l pr p = pr p := by
  intro l
  induction l with
  | nil => intro pr p _; rfl
  | cons a t ih =>
      intro pr p hp
      have hpa : p ≠ a := fun e => hp (e ▸ List.mem_cons_self a t)
      have hpt : p ∉ t := fun h => hp (List.mem_cons_of_mem a h)
      have e1 : gsTab c lt d (a :: t) pr
          = gsTab c lt d t (fun q => if q = a then newVal c lt d pr a else pr q) := rfl
      rw [e1, ih _ p hpt]
      simp [hpa]

/-- When a page is not in its own reverse-index entry, the accumulation of
lines 136-138 is the plain base-plus-weighted-sum formula over the current
table. -/
theorem newVal_no_self (c : Corpus) (lt : Nat → List Nat) (d : ℚ)
    (pr : Nat → ℚ) (page : Nat) (h : page ∉ lt page) :
    newVal c lt d pr page
      = (1 - d) / (c.pages.length : ℚ)
        + d * ((lt page).map (fun q => pr q / ((c.links q).length : ℚ))).sum := by
  unfold newVal
  have main : ∀ (m : List Nat), (∀ x ∈ m, x ≠ page) → ∀ v0 : ℚ,
      (m.foldl (fun v link =>
          v + d * ((if link = page then v else pr link) / ((c.links link).length : ℚ))) v0)
        = v0 + d * (m.map (fun q => pr q / ((c.links q).length : ℚ))).sum := by
    intro m
    induction m with
    | nil => intro _ v0; simp
    | cons a t ih =>
        intro hm v0
        have ha : a ≠ page := hm a (List.mem_cons_self a t)
        rw [List.foldl_cons, if_neg ha,
          ih (fun x hx => hm x (List.mem_cons_of_mem a hx))]
        simp only [List.map_cons, List.sum_cons]
        ring
  exact main (lt page) (fun x hx e => h (e ▸ hx)) _

/-- Core Gauss-Seidel characterization of the pass: splitting the processed
key list as `l₁ ++ p :: l₂`, the value the pass gives `p` uses the *pass's
own output* for the nodes of `l₁` (processed before `p`) and the incoming
table for all other nodes. -/
theorem gsTab_gauss_seidel (c : Corpus) (lt : Nat → List Nat) (d : ℚ) :
    ∀ (l₁ : List Nat) (p : Nat) (l₂ : List Nat) (pr : Nat → ℚ),
      (l₁ ++ p :: l₂).Nodup → (∀ q ∈ l₁ ++ p :: l₂, q ∉ lt q) →
      gsTab c lt d (l₁ ++ p :: l₂) pr p
        = (1 - d) / (c.pages.length : ℚ)
          + d * ((lt p).map (fun q =>
              (if q ∈ l₁ then gsTab c lt d (l₁ ++ p :: l₂) pr q else pr q)
                / ((c.links q).length : ℚ))).sum := by
  intro l₁
  induction l₁ with
  | nil =>
      intro p l₂ pr hnd hself
      have hp2 : p ∉ l₂ := (List.nodup_cons.mp (by simpa using hnd)).1
      have e1 : gsTab c lt d ([] ++ p :: l₂) pr
          = gsTab c lt d l₂ (fun q => if q = p then newVal c lt d pr p else pr q) := rfl
      rw [e1, gsTab_notMem c lt d l₂ _ p hp2]
      simp only [if_pos rfl, ite_true]
      rw [newVal_no_self c lt d pr p (hself p (by simp))]
      simp
  | cons a t ih =>
      intro p l₂ pr hnd hself
      have hnd0 : (a :: (t ++ p :: l₂)).Nodup := by simpa using hnd
      have hna : a ∉ t ++ p :: l₂ := (List.nodup_cons.mp hnd0).1
      have hnd' : (t ++ p :: l₂).Nodup := (List.nodup_cons.mp hnd0).2
      have hself' : ∀ q ∈ t ++ p :: l₂, q ∉ lt q := by
        intro q hq
        exact hself q (by simp [List.mem_append] at hq ⊢; tauto)
      have hpa : p ≠ a := by
        intro e
        exact hna (e ▸ List.mem_append.mpr (Or.inr (List.mem_cons_self p l₂)))
      have e1 : gsTab c lt d ((a :: t) ++ p :: l₂) pr
          = gsTab c lt d (t ++ p :: l₂)
              (fun q => if q = a then newVal c lt d pr a else pr q) := rfl
      rw [e1, ih p l₂ _ hnd' hself']
      congr 2
      apply congrArg List.sum
      apply List.map_congr_left
      intro q hq
      by_cases hqa : q = a
      · subst hqa
        have hqt : q ∉ t := fun hh => hna (List.mem_append.mpr (Or.inl hh))
        rw [if_neg hqt, if_pos (List.mem_cons_self q t),
          gsTab_notMem c lt d (t ++ p :: l₂) _ q hna]
      · have hmem : (q ∈ a :: t) ↔ (q ∈ t) := by
          simp [List.mem_cons, hqa]
        by_cases hqt : q ∈ t
        · rw [if_pos hqt, if_pos (hmem.mpr hqt)]
        · rw [if_neg hqt, if_neg (fun hh => hqt (hmem.mp hh))]
          simp [hqa]

/-- C2 counterexample: on the 3-node corpus `{A: {B, C}, B: {C}, C: {A}}`
with damping 0.85 and uniform initial ranks, the first pass of the
convergence loop gives node C the value 851/2400, while the spec's
Jacobi-style reference recurrence gives 19/40: the pass does not use a full
snapshot of the previous pass's values. -/
theorem C2_counterexample :
    (gsPass (sinkRewrite cTri) (buildLinksTo (sinkRewrite cTri)).lt (17/20)
        (initRank (sinkRewrite cTri))).1 2
      ≠ jacobiPass (sinkRewrite cTri) (buildLinksTo (sinkRewrite cTri)).lt (17/20)
          (initRank (sinkRewrite cTri)) 2 := by
  with_unfolding_all decide

/-- C2 (amended): each pass of the convergence loop updates nodes in key
order against the current table (Gauss-Seidel): provided no page appears in
its own reverse-index entry, the value produced for a node `p` is
`(1-d)/|graph| + d * Σ_{q ∈ links_to(p)} cur(q)/|outlinks(q)|` where
`cur(q)` is the *pass's own output* for nodes processed before `p` and the
previous table's value otherwise. -/
theorem C2_pass_is_gauss_seidel (c : Corpus) (lt : Nat → List Nat) (d : ℚ)
    (pr0 : Nat → ℚ) (l₁ : List Nat) (p : Nat) (l₂ : List Nat)
    (hsplit : c.pages = l₁ ++ p :: l₂)
    (hnd : c.pages.Nodup) (hself : ∀ q ∈ c.pages, q ∉ lt q) :
    (gsPass c lt d pr0).1 p
      = (1 - d) / (c.pages.length : ℚ)
        + d * ((lt p).map (fun q =>
            (if q ∈ l₁ then (gsPass c lt d pr0).1 q else pr0 q)
              / ((c.links q).length : ℚ))).sum := by
  rw [gsPass_fst, hsplit]
  exact hsplit ▸ gsTab_gauss_seidel c lt d l₁ p l₂ pr0 (hsplit ▸ hnd)
    (hsplit ▸ hself)

/-- Witness for the amended C2 at `{A: {B, C}, B: {C}, C: {A}}`, damping
0.85, uniform initial table, node B (preceded by A, followed by C). -/
theorem C2_pass_is_gauss_seidel_witness :
    (gsPass (sinkRewrite cTri) (buildLinksTo (sinkRewrite cTri)).lt (17/20)
        (initRank (sinkRewrite cTri))).1 1
      = (1 - (17/20 : ℚ)) / ((sinkRewrite cTri).pages.length : ℚ)
        + (17/20) * (((buildLinksTo (sinkRewrite cTri)).lt 1).map (fun q =>
            (if q ∈ [0] then
              (gsPass (sinkRewrite cTri) (buildLinksTo (sinkRewrite cTri)).lt
                (17/20) (initRank (sinkRewrite cTri))).1 q
             else initRank (sinkRewrite cTri) q)
              / (((sinkRewrite cTri).links q).length : ℚ))).sum :=
  C2_pass_is_gauss_seidel (sinkRewrite cTri)
    (buildLinksTo (sinkRewrite cTri)).lt (17/20) (initRank (sinkRewrite cTri))
    [0] 1 [2] (by decide) (by decide) (by with_unfolding_all decide)

/-- C1: the sink outlink rewrite of `iterate_pagerank` (line 120,
`corpus[page].update(set(corpus.keys()))`) is an in-place mutation of the
caller's dict, not a private copy: on the graph `{A: {B}, B: {}}` the
caller's outlink set for B is empty before the call and `{A, B}` after the
rewrite step. -/
theorem C1_sink_rewrite_mutates_shared_graph :
    cAB.links 1 = [] ∧ (sinkRewrite cAB).links 1 = [0, 1] :=
  ⟨by decide, by decide⟩

/-- C4: the convergence loop has no iteration cap and the source defines no
NonConvergence condition; the number of passes it needs is unbounded over
the inputs.  On `{A: {B}, B: {A}, C: {A, B}}` with damping 999/1000 the loop
is still running after 100 full passes (it first meets the tolerance
only after more than 600 passes). -/
theorem C4_loop_still_running_after_100_passes :
    (iterate_pagerank cSlow (999/1000) 100).isSome = false := by
  with_unfolding_all decide

/-- C5: neither estimator validates its inputs.  `iterate_pagerank` on the
empty graph returns an empty table instead of raising InvalidGraph;
`sample_pagerank` with damping 2 (outside [0,1]) and with a sample count of
0 returns normally instead of raising InvalidParameter. -/
theorem C5_no_input_validation :
    (iterate_pagerank cEmpty (17/20) 1).isSome = true ∧
      (sample_pagerank cCyc 2 [1/2] 0).isSome = true ∧
      (sample_pagerank cCyc (17/20) [] 0).isSome = true := by
  refine ⟨?_, ?_, ?_⟩ <;> with_unfolding_all decide

/-- C8 counterexample: on `{A: {B}, B: {}}` with damping 0.85 the solver
returns a table, but neither rank(A) nor rank(B) equals 0.5. -/
theorem C8_counterexample :
    (iterate_pagerank cAB (17/20) 20).map
        (fun t => (decide (t 0 = 1/2), decide (t 1 = 1/2)))
      = some (false, false) := by
  with_unfolding_all decide

/-- C8 (amended): on `{A: {B}, B: {}}` with damping 0.85, `iterate_pagerank`
does rewrite B's outlinks to `{A, B}`, but the returned ranks are not
0.5/0.5: rank(A) ≈ 0.248 and rank(B) ≈ 0.407 (the convergence loop reads
partially updated values — including B's own — within a pass, so the ranks
do not even total 1). -/
theorem C8_sink_rewrite_but_unequal_ranks :
    (sinkRewrite cAB).links 1 = [0, 1] ∧
      ∃ t, iterate_pagerank cAB (17/20) 20 = some t ∧
        t 0 ≠ 1/2 ∧ t 1 ≠ 1/2 ∧
        24/100 < t 0 ∧ t 0 < 25/100 ∧ 40/100 < t 1 ∧ t 1 < 41/100 := by
  refine ⟨by decide,
    (iterate_pagerank cAB (17/20) 20).get (by with_unfolding_all decide),
    (Option.some_get _).symm, ?_, ?_, ?_, ?_, ?_, ?_⟩
  · with_unfolding_all decide
  · with_unfolding_all decide
  · with_unfolding_all decide
  · with_unfolding_all decide
  · with_unfolding_all decide
  · with_unfolding_all decide

end PageRank
